import Mathlib

/-!
Verification development for the inflow workflow engine.

The definitions below are a shallow embedding of the TypeScript sources:

* `src/inngest/utils.ts` — `topologicalSort`, together with a faithful model of
  the `toposort` npm package (marcelklehr/toposort v2) that it calls: the
  package derives the vertex set from the edge list, runs a depth-first search
  keeping the set of predecessors on the current chain, and throws an error
  whose message starts with "Cyclic dependency" when a visited child is on the
  chain.  The model sequentialises that recursion with an explicit fuel
  argument so every definition is structurally recursive and computable; a
  theorem below shows the fuel can never run out, so the artificial
  `fuelMsg` error is unreachable from `toposort`.
* `src/inngest/functions.ts` — `executeWorkflow`: the run orchestrator loop.
  Executor bodies perform I/O (HTTP, AI calls) beneath the durable step
  runner, so executors are embedded as abstract functions from a node and a
  context to `Except String Ctx`; an `.error` result models a non-retriable
  (terminal) failure surfacing to the loop.  The loop additionally returns
  the list of node ids whose executor was invoked — the observation of
  executor invocations the spec calls an invocation counter.
* `src/features/executions/lib/executor-registry.ts` — `getExecutor`.
  The registry is a parameter (an association list from type tags to
  executors) because its concrete entries are the impure executors.
* `src/features/executions/components/agent-node/executor.ts` —
  `replaceTemplateVariables`: the regex-driven template interpolation,
  embedded as a left-to-right scanner with the same match extents and the
  same per-token backtracking behaviour as the regex
  `\{\{(\s*json\s+)?([^}]+)\}\}` used with `String.replace`.
-/

namespace Inflow

/-- A workflow node: identifier, type tag and an opaque configuration payload
(the claims never inspect the payload, so it is carried as a string map). -/
structure Node where
  id : String
  type : String
  data : List (String × String)
  deriving DecidableEq, Repr

/-- A directed dependency edge between two node identifiers. -/
structure Connection where
  fromNodeId : String
  toNodeId : String
  deriving DecidableEq, Repr

/-- An edge of the toposort library's input: a `[from, to]` pair. -/
abbrev Edge := String × String

/-- JS `Set.add` on an insertion-ordered set represented as a list. -/
def addUnique (acc : List String) (x : String) : List String :=
  if x ∈ acc then acc else acc ++ [x]

/-- The toposort library's `uniqueNodes`: every edge endpoint, first
occurrence order (JS `Set` iterates in insertion order). -/
def uniqueNodes (g : List Edge) : List String :=
  g.foldl (fun acc e => addUnique (addUnique acc e.1) e.2) []

/-- Keep the first occurrence of every element (JS `[...new Set(l)]`). -/
def dedupFirstAux (seen : List String) : List String → List String
  | [] => []
  | x :: xs => if x ∈ seen then dedupFirstAux seen xs else x :: dedupFirstAux (x :: seen) xs

/-- Keep the first occurrence of every element (JS `[...new Set(l)]`). -/
def dedupFirst (l : List String) : List String := dedupFirstAux [] l

/-- Targets of the edges leaving `n`, in edge-list order. -/
def successors (g : List Edge) (n : String) : List String :=
  (g.filter (fun e => e.1 = n)).map (fun e => e.2)

/-- The toposort library's outgoing-edge set of `n`, in the order its DFS
consumes it: the JS `Set` holds first occurrences in insertion order and the
`do { child = outgoing[--i] }` loop walks it from the last element. -/
def children (g : List Edge) (n : String) : List String :=
  (dedupFirst (successors g n)).reverse

/-- DFS state of the toposort library: nodes already visited, and the output
array, which the library fills from its end (`sorted[--cursor] = node`) and we
therefore build by prepending. -/
structure DfsState where
  visited : List String
  acc : List String
  deriving Repr, DecidableEq

/-- Message of the error the toposort library throws on a cycle.  The real
message appends the JSON rendering of the offending node; the caller only
tests the message with `includes("Cyclic")`, so the suffix is omitted. -/
def cyclicMsg : String := "Cyclic dependency"

/-- Artificial message for fuel exhaustion; `toposort_no_fuelMsg` below proves
it is unreachable from `toposort`. -/
def fuelMsg : String := "toposort fuel exhausted"

/-- The toposort library's recursion, sequentialised.  `dfsList g fuel cs preds st`
visits the pending nodes `cs` in order with predecessor chain `preds`:
a pending node on the chain raises the cyclic error (this check precedes the
visited check, exactly as in the library); a visited one is skipped; otherwise
it is marked visited, its outgoing edges are visited with it prepended to the
chain, and it is then placed at the front of the output accumulator. -/
def dfsList (g : List Edge) : Nat → List String → List String → DfsState → Except String DfsState
  | 0, _, _, _ => .error fuelMsg
  | _ + 1, [], _, st => .ok st
  | fuel + 1, c :: cs, preds, st =>
    if c ∈ preds then .error cyclicMsg
    else if c ∈ st.visited then dfsList g fuel cs preds st
    else
      match dfsList g fuel (children g c) (c :: preds) ⟨c :: st.visited, st.acc⟩ with
      | .error e => .error e
      | .ok st' => dfsList g fuel cs preds ⟨st'.visited, c :: st'.acc⟩

/-- The toposort library's default export: vertices are the edge endpoints,
roots are tried from the last vertex to the first (`while (i--)`), each with an
empty predecessor chain. -/
def toposort (g : List Edge) : Except String (List String) :=
  let ns := uniqueNodes g
  match dfsList g ((ns.length + 1) * (ns.length + 2)) ns.reverse [] ⟨[], []⟩ with
  | .error e => .error e
  | .ok st => .ok st.acc

/-- Whether `pat` occurs as a contiguous run inside `l`. -/
def sublistAt (pat l : List Char) : Bool :=
  (List.range (l.length + 1)).any fun i => ((l.drop i).take pat.length) == pat

/-- JS `error.message.includes("Cyclic")`. -/
def msgHasCyclic (e : String) : Bool := sublistAt "Cyclic".data e.data

/-- JS `new Map(nodes.map(n => [n.id, n])).get(id)`: a later entry with the
same key overwrites an earlier one, hence the reversed search. -/
def nodeMapGet (nodes : List Node) (id : String) : Option Node :=
  nodes.reverse.find? (fun n => n.id == id)

/-- The `edges` array built from the connections. -/
def connEdges (connections : List Connection) : List Edge :=
  connections.map (fun c => (c.fromNodeId, c.toNodeId))

/-- Membership in the `connectedNodeIds` set of `topologicalSort`. -/
def isConnected (connections : List Connection) (id : String) : Bool :=
  connections.any (fun c => c.fromNodeId == id || c.toNodeId == id)

/-- The edge list handed to the library: the connection edges followed by a
self-edge for every node with no incident connection. -/
def fullEdges (nodes : List Node) (connections : List Connection) : List Edge :=
  connEdges connections ++
    (nodes.filter (fun n => !isConnected connections n.id)).map (fun n => (n.id, n.id))

/-- Message of the error `topologicalSort` throws when the library reports a
cycle. -/
def cycleErrorMsg : String := "Workflow contains a cycle"

/-- `topologicalSort` from `src/inngest/utils.ts`: with no connections the
nodes are returned as given; otherwise the library sorts the full edge list,
errors whose message contains "Cyclic" are rethrown as the workflow cycle
error, the sorted ids are deduplicated, and each id is mapped back through the
node map, dropping ids without a node (`.filter(Boolean)` on the non-null
asserted lookup). -/
def topologicalSort (nodes : List Node) (connections : List Connection) :
    Except String (List Node) :=
  if connections.length = 0 then .ok nodes
  else
    match toposort (fullEdges nodes connections) with
    | .error e => if msgHasCyclic e then .error cycleErrorMsg else .error e
    | .ok sortedNodeIds => .ok ((dedupFirst sortedNodeIds).filterMap (nodeMapGet nodes))

/-! ## Execution context and JSON values -/

/-- A JSON-compatible value, as threaded through the execution context and the
template engine.  Numbers are carried as integers: the claims only exercise
integral numerics, and floating point is outside the embedding. -/
inductive JsonValue where
  | null : JsonValue
  | bool (b : Bool) : JsonValue
  | num (n : Int) : JsonValue
  | str (s : String) : JsonValue
  | arr (xs : List JsonValue) : JsonValue
  | obj (fields : List (String × JsonValue)) : JsonValue

/-- The execution context: a string-keyed mapping (`Record<string, unknown>`),
`[]` being the empty mapping `{}`. -/
abbrev Ctx := List (String × JsonValue)

/-- An executor capability: it receives the node (its configuration and id)
and the current context and yields the replacement context, or fails.  The
side effects performed beneath the durable step runner are abstracted away;
an `.error` models a non-retriable (terminal) failure reaching the loop. -/
abbrev Executor := Node → Ctx → Except String Ctx

/-- The executor registry: an association from node-type tags to executors
(`executorRegistry` in the source; its concrete entries are impure executor
functions, so the mapping is a parameter here). -/
abbrev Registry := List (String × Executor)

/-- `getExecutor` from the executor registry module: look the type tag up, and
throw the unknown-node-type error when no executor is registered for it. -/
def getExecutor (registry : Registry) (type : String) : Except String Executor :=
  match registry.lookup type with
  | some executor => .ok executor
  | none => .error ("No executor found for node type: " ++ type)

/-- The `for (const node of sortedNodes)` loop of `executeWorkflow`: resolve
the executor of each node in order and thread the context it returns to the
next node; a thrown error aborts the loop.  The first component is the list of
node ids whose executor was actually invoked, the observation the spec calls
an executor-invocation counter (a dispatch failure aborts before invoking). -/
def runNodes (registry : Registry) : List Node → Ctx → List String × Except String Ctx
  | [], context => ([], .ok context)
  | node :: rest, context =>
    match getExecutor registry node.type with
    | .error e => ([], .error e)
    | .ok executor =>
      match executor node context with
      | .error e => ([node.id], .error e)
      | .ok context' =>
        let (trace, r) := runNodes registry rest context'
        (node.id :: trace, r)

/-- `executeWorkflow` from `src/inngest/functions.ts`: validate the workflow
id, prepare the execution order with `topologicalSort` (the nodes and
connections stand for the stored workflow the prepare step fetches), start
from the trigger-supplied initial data or the empty mapping
(`event.data.initialData || {}`), run the loop, and return the workflow id
with the final context.  Failures propagate out unchanged; the first component
is the executor-invocation trace. -/
def executeWorkflow (registry : Registry) (workflowId? : Option String)
    (nodes : List Node) (connections : List Connection) (initialData? : Option Ctx) :
    List String × Except String (String × Ctx) :=
  match workflowId? with
  | none => ([], .error "Workflow ID is missing")
  | some workflowId =>
    match topologicalSort nodes connections with
    | .error e => ([], .error e)
    | .ok sortedNodes =>
      let context := initialData?.getD []
      match runNodes registry sortedNodes context with
      | (trace, .error e) => (trace, .error e)
      | (trace, .ok result) => (trace, .ok (workflowId, result))

/-- Spec-side description of a fully successful run (§4.2, §8.4): reading the
nodes in scheduler order, every dispatch succeeds, every executor invocation
succeeds, and each executor receives exactly the context returned by its
predecessor; the final context is the left fold of the returned contexts over
the initial one. -/
def FoldsTo (registry : Registry) : List Node → Ctx → Ctx → Prop
  | [], context, final => final = context
  | node :: rest, context, final =>
    ∃ executor context',
      getExecutor registry node.type = .ok executor ∧
      executor node context = .ok context' ∧
      FoldsTo registry rest context' final

/-! ## Template interpolation engine -/

/-- The opening brace character (written via its code point, as braces are
kept out of string literals in this file). -/
def obrace : Char := Char.ofNat 123

/-- The closing brace character. -/
def cbrace : Char := Char.ofNat 125

/-- JS `\s` on the character classes the engine meets (the exotic Unicode
space code points are omitted; every claim below is insensitive to the exact
class, which only feeds `splitJsonFlag` and `trimChars`). -/
def isJsSpace (c : Char) : Bool :=
  c = ' ' || c = '\t' || c = '\n' || c = '\r' || c = Char.ofNat 11 || c = Char.ofNat 12

/-- JS `String.prototype.trim`. -/
def trimChars (l : List Char) : List Char :=
  ((l.dropWhile isJsSpace).reverse.dropWhile isJsSpace).reverse

/-- JS `String.prototype.split(".")`: split at every dot, keeping empty
fragments, with `[""]` for the empty string. -/
def splitDot : List Char → List (List Char)
  | [] => [[]]
  | c :: rest =>
    if c = '.' then [] :: splitDot rest
    else
      match splitDot rest with
      | g :: gs => (c :: g) :: gs
      | [] => [[c]]

/-- How the regex `(\s*json\s+)?([^}]+)` divides the token content `S`:
whitespace then the literal `json` then at least one whitespace character is
consumed as the flag group when possible, greedily but leaving at least one
character for the path group (the `\s+` gives one character back to the path
when the content ends in the flag, matching the regex backtracking); otherwise
the flag group stays unmatched and the whole content is the path.  Returns
whether the flag group matched, and the path characters. -/
def splitJsonFlag (S : List Char) : Bool × List Char :=
  let w := S.takeWhile isJsSpace
  let r1 := S.drop w.length
  if r1.take 4 = ['j', 's', 'o', 'n'] then
    let r2 := r1.drop 4
    let w2 := r2.takeWhile isJsSpace
    if w2.length = 0 then (false, S)
    else
      let rest := r2.drop w2.length
      if rest ≠ [] then (true, rest)
      else if 2 ≤ w2.length then (true, w2.drop (w2.length - 1))
      else (false, S)
  else (false, S)

/-- The JS array index a key denotes: the canonical decimal numerals `0`,
`1`, … (all digits, no leading zero except `0` itself) and nothing else, as in
the `key in array` test. -/
def parseIndex (key : String) : Option Nat :=
  let l := key.data
  if l.all (fun c => 48 ≤ c.toNat && c.toNat ≤ 57) ∧ l ≠ [] ∧
      (l = ['0'] ∨ l.head? ≠ some '0') then
    some (l.foldl (fun n c => n * 10 + (c.toNat - 48)) 0)
  else none

/-- Walk one path step: JS `value && typeof value === "object" && key in value`
then `value[key]`.  Objects give their (own) field; arrays answer canonical
numeric indices and `length`; every other value stops the walk.  (The JS
prototype chain would additionally expose inherited function-valued members;
those lie outside the JSON data model and are omitted.) -/
def walkStep (v : JsonValue) (key : String) : Option JsonValue :=
  match v with
  | .obj fields => fields.lookup key
  | .arr xs =>
    if key = "length" then some (.num xs.length)
    else
      match parseIndex key with
      | some n => if n < xs.length then xs.get? n else none
      | none => none
  | _ => none

/-- The `for (const key of keys)` walk of `replaceTemplateVariables`, starting
from the context object. -/
def resolvePath : List String → JsonValue → Option JsonValue
  | [], v => some v
  | key :: keys, v =>
    match walkStep v key with
    | some v' => resolvePath keys v'
    | none => none

mutual

/-- JS `String(value)`: strings unchanged, numbers in decimal, booleans and
null by name, arrays joined by commas with null elements blank, plain objects
as `[object Object]`. -/
def jsToString : JsonValue → String
  | .null => "null"
  | .bool b => if b then "true" else "false"
  | .num n => toString n
  | .str s => s
  | .arr xs => String.intercalate "," (jsJoinParts xs)
  | .obj _ => "[object Object]"

/-- The parts of JS `Array.prototype.join(",")`: null elements render blank. -/
def jsJoinParts : List JsonValue → List String
  | [] => []
  | .null :: vs => "" :: jsJoinParts vs
  | v :: vs => jsToString v :: jsJoinParts vs

end

/-- Hexadecimal digit for `jsonEscape`. -/
def hexDigit (n : Nat) : Char :=
  if n < 10 then Char.ofNat (48 + n) else Char.ofNat (87 + n)

/-- JSON string escaping as `JSON.stringify` performs it on the characters the
engine meets: quote and backslash escaped, the named control escapes, other
control characters as `\u00XX`. -/
def jsonEscape (s : String) : String :=
  String.mk (s.data.flatMap fun c =>
    if c = '\x22' then ['\\', '\x22']
    else if c = '\\' then ['\\', '\\']
    else if c = '\n' then ['\\', 'n']
    else if c = '\t' then ['\\', 't']
    else if c = '\r' then ['\\', 'r']
    else if c = Char.ofNat 8 then ['\\', 'b']
    else if c = Char.ofNat 12 then ['\\', 'f']
    else if c.toNat < 32 then
      ['\\', 'u', '0', '0', hexDigit (c.toNat / 16), hexDigit (c.toNat % 16)]
    else [c])

mutual

/-- JS `JSON.stringify` on JSON-compatible values. -/
def jsonStringify : JsonValue → String
  | .null => "null"
  | .bool b => if b then "true" else "false"
  | .num n => toString n
  | .str s => "\x22" ++ jsonEscape s ++ "\x22"
  | .arr xs => "[" ++ String.intercalate "," (jsonStringifyList xs) ++ "]"
  | .obj fields =>
    String.mk [obrace] ++ String.intercalate "," (jsonStringifyFields fields) ++
      String.mk [cbrace]

/-- `JSON.stringify` of every array element. -/
def jsonStringifyList : List JsonValue → List String
  | [] => []
  | v :: vs => jsonStringify v :: jsonStringifyList vs

/-- `JSON.stringify` of every object entry, as `"key":value`. -/
def jsonStringifyFields : List (String × JsonValue) → List String
  | [] => []
  | f :: fs => ("\x22" ++ jsonEscape f.1 ++ "\x22:" ++ jsonStringify f.2) :: jsonStringifyFields fs

end

/-- The replacement decision for one token with content `S` (the characters
between the braces): split off the json flag, trim the path, split it on dots,
walk the context; on success the resolved value with the flag, on failure
none (the token is then kept verbatim). -/
def resolveToken (context : Ctx) (S : List Char) : Option (Bool × JsonValue) :=
  let fp := splitJsonFlag S
  match resolvePath ((splitDot (trimChars fp.2)).map String.mk) (.obj context) with
  | some v => some (fp.1, v)
  | none => none

/-- The callback of the `text.replace` call, as the characters substituted for
the full match `{{S}}`. -/
def substToken (context : Ctx) (S : List Char) : List Char :=
  match resolveToken context S with
  | none => obrace :: obrace :: (S ++ [cbrace, cbrace])
  | some (flag, v) => if flag then (jsonStringify v).data else (jsToString v).data

/-- Attempt to read a token body right after a `{{`: the regex needs a
nonempty run of non-`}` characters and then `}}`; greedy matching with no
`}` inside the run makes the run exactly the `takeWhile` prefix.  Returns the
token content and the text after the closing braces. -/
def tokenSplit (rest : List Char) : Option (List Char × List Char) :=
  let S := rest.takeWhile (fun x => x ≠ cbrace)
  match S, rest.drop S.length with
  | _ :: _, b1 :: b2 :: after =>
    if b1 = cbrace ∧ b2 = cbrace then some (S, after) else none
  | _, _ => none

/-- The global regex scan of `text.replace(/\{\{(\s*json\s+)?([^}]+)\}\}/g, ...)`:
at each position a match needs `{{`, a nonempty run of non-`}` characters, and
`}}`; a match is replaced (the replacement is not rescanned) and scanning
resumes after it, otherwise the scan advances one character.  The fuel only
bounds the recursion and is in surplus whenever it is at least the character
count, each step consuming at least one character. -/
def rtvAux (context : Ctx) : Nat → List Char → List Char
  | 0, l => l
  | _ + 1, [] => []
  | fuel + 1, c :: cs =>
    if c = obrace then
      match cs with
      | c2 :: rest =>
        if c2 = obrace then
          match tokenSplit rest with
          | some (S, after) => substToken context S ++ rtvAux context fuel after
          | none => c :: rtvAux context fuel cs
        else c :: rtvAux context fuel cs
      | [] => [c]
    else c :: rtvAux context fuel cs

/-- `replaceTemplateVariables` from the agent-node executor. -/
def replaceTemplateVariables (text : String) (context : Ctx) : String :=
  String.mk (rtvAux context text.data.length text.data)

/-! ## Token decompositions, for stating the template claims -/

/-- A source-text fragment: literal text, or a token `{{s}}` carrying the
content `s` between the braces. -/
inductive Piece where
  | lit (s : String) : Piece
  | tok (s : String) : Piece

/-- The source text of a fragment. -/
def pieceText : Piece → String
  | .lit s => s
  | .tok s => String.mk (obrace :: obrace :: (s.data ++ [cbrace, cbrace]))

/-- The characters of the text assembled from fragments. -/
def assembleChars (ps : List Piece) : List Char :=
  (ps.map (fun p => (pieceText p).data)).flatten

/-- The text assembled from fragments. -/
def assemble (ps : List Piece) : String := String.mk (assembleChars ps)

/-- Well-formedness of a fragment for the interpolation claims: literal text
carries no opening brace (so it neither contains nor helps form a token), and
token content is nonempty without closing braces, as the regex requires. -/
def pieceOK : Piece → Prop
  | .lit s => obrace ∉ s.data
  | .tok s => s.data ≠ [] ∧ cbrace ∉ s.data

/-- What the spec says the engine substitutes for each fragment: literals stay,
a token whose dotted path resolves becomes the JSON encoding of the value if
the json flag is present and its string form otherwise, and an unresolved
token stays verbatim. -/
def renderPiece (context : Ctx) : Piece → String
  | .lit s => s
  | .tok s =>
    match resolveToken context s.data with
    | some (true, v) => jsonStringify v
    | some (false, v) => jsToString v
    | none => pieceText (.tok s)

/-- The characters of the spec-side rendering of a fragment list. -/
def renderChars (context : Ctx) (ps : List Piece) : List Char :=
  (ps.map (fun p => (renderPiece context p).data)).flatten

/-- Whether a text contains a token of the interpolation grammar: some
position offers `{{`, a nonempty run of non-`}` characters, and `}}`. -/
def HasTok (l : List Char) : Prop :=
  ∃ a S b, l = a ++ obrace :: obrace :: (S ++ cbrace :: cbrace :: b) ∧ S ≠ [] ∧ cbrace ∉ S

/-! ## Graph-theoretic notions for the scheduler claims -/

/-- A nonempty directed path along the edges of `g`. -/
inductive EdgePath (g : List Edge) : String → String → Prop where
  | single {u v : String} : (u, v) ∈ g → EdgePath g u v
  | cons {u v w : String} : (u, v) ∈ g → EdgePath g v w → EdgePath g u w

/-- The edge list contains a directed cycle (a nonempty path from a vertex to
itself; a self-edge is the one-step case). -/
def HasCycle (g : List Edge) : Prop := ∃ u, EdgePath g u u

/-- The DFS predecessor chain: consecutive entries are connected by an edge of
`g` pointing from the later-pushed vertex to the earlier one. -/
def Chain (g : List Edge) : List String → Prop
  | [] => True
  | [_] => True
  | x :: y :: rest => (y, x) ∈ g ∧ Chain g (y :: rest)

/-- Output accumulator soundness: every successor of a listed vertex occurs
strictly later in the list. -/
def GoodAcc (g : List Edge) (acc : List String) : Prop :=
  ∀ l₁ u l₂, acc = l₁ ++ u :: l₂ → ∀ v, (u, v) ∈ g → v ∈ l₂

/-- The invariant the DFS maintains: the accumulator lists distinct graph
vertices in a successor-closed order, every accumulated vertex is visited,
every visited vertex is accumulated or on the predecessor chain, and no
accumulated vertex is on the chain. -/
structure StInv (g : List Edge) (preds : List String) (st : DfsState) : Prop where
  nodupAcc : st.acc.Nodup
  good : GoodAcc g st.acc
  accVisited : ∀ x ∈ st.acc, x ∈ st.visited
  visitedAcc : ∀ x ∈ st.visited, x ∈ st.acc ∨ x ∈ preds
  accPreds : ∀ x ∈ st.acc, x ∉ preds
  accNodes : ∀ x ∈ st.acc, x ∈ uniqueNodes g

end Inflow

namespace Inflow

/-! ## Library lemmas: deduplication and vertex sets -/

theorem mem_dedupFirstAux {x : String} :
    ∀ {seen l : List String}, x ∈ dedupFirstAux seen l ↔ x ∈ l ∧ x ∉ seen := by
  intro seen l
  induction l generalizing seen with
  | nil => simp [dedupFirstAux]
  | cons y ys ih =>
    by_cases hy : y ∈ seen
    · simp only [dedupFirstAux, if_pos hy, ih, List.mem_cons]
      constructor
      · rintro ⟨hx, hns⟩
        exact ⟨Or.inr hx, hns⟩
      · rintro ⟨hx | hx, hns⟩
        · exact absurd (hx ▸ hy) hns
        · exact ⟨hx, hns⟩
    · simp only [dedupFirstAux, if_neg hy, List.mem_cons, ih]
      constructor
      · rintro (rfl | ⟨hx, hns⟩)
        · exact ⟨Or.inl rfl, hy⟩
        · exact ⟨Or.inr hx, fun h => hns (Or.inr h)⟩
      · rintro ⟨rfl | hx, hns⟩
        · exact Or.inl rfl
        · by_cases hxy : x = y
          · exact Or.inl hxy
          · refine Or.inr ⟨hx, fun h => ?_⟩
            rcases h with h' | h'
            · exact hxy h'
            · exact hns h'

theorem nodup_dedupFirstAux : ∀ {seen l : List String}, (dedupFirstAux seen l).Nodup := by
  intro seen l
  induction l generalizing seen with
  | nil => simp [dedupFirstAux]
  | cons y ys ih =>
    by_cases hy : y ∈ seen
    · simpa only [dedupFirstAux, if_pos hy] using @ih seen
    · simp only [dedupFirstAux, if_neg hy]
      refine List.nodup_cons.mpr ⟨fun hmem => ?_, @ih (y :: seen)⟩
      exact (mem_dedupFirstAux.mp hmem).2 (List.mem_cons_self _ _)

theorem mem_dedupFirst {x : String} {l : List String} : x ∈ dedupFirst l ↔ x ∈ l := by
  simp [dedupFirst, mem_dedupFirstAux]

theorem nodup_dedupFirst {l : List String} : (dedupFirst l).Nodup := nodup_dedupFirstAux

theorem mem_addUnique {x y : String} {acc : List String} :
    x ∈ addUnique acc y ↔ x ∈ acc ∨ x = y := by
  by_cases h : y ∈ acc
  · simp only [addUnique, if_pos h]
    exact ⟨Or.inl, fun hx => by rcases hx with hx | rfl; exacts [hx, h]⟩
  · simp [addUnique, if_neg h]

theorem nodup_addUnique {y : String} {acc : List String} (h : acc.Nodup) :
    (addUnique acc y).Nodup := by
  by_cases hy : y ∈ acc
  · simpa [addUnique, if_pos hy] using h
  · simpa [addUnique, if_neg hy] using List.Nodup.append h (List.nodup_singleton y)
      (fun a ha hay => hy ((List.mem_singleton.mp hay) ▸ ha))

theorem mem_uniqueNodes_foldl {x : String} :
    ∀ {g : List Edge} {acc : List String},
      x ∈ g.foldl (fun acc e => addUnique (addUnique acc e.1) e.2) acc ↔
        x ∈ acc ∨ ∃ e ∈ g, x = e.1 ∨ x = e.2 := by
  intro g
  induction g with
  | nil => simp
  | cons e es ih =>
    intro acc
    simp only [List.foldl_cons, ih, mem_addUnique, List.mem_cons]
    constructor
    · rintro (((h | rfl) | rfl) | ⟨e', he', hx⟩)
      · exact Or.inl h
      · exact Or.inr ⟨e, Or.inl rfl, Or.inl rfl⟩
      · exact Or.inr ⟨e, Or.inl rfl, Or.inr rfl⟩
      · exact Or.inr ⟨e', Or.inr he', hx⟩
    · rintro (h | ⟨e', he' | he', hx⟩)
      · exact Or.inl (Or.inl (Or.inl h))
      · subst he'
        rcases hx with rfl | rfl
        · exact Or.inl (Or.inl (Or.inr rfl))
        · exact Or.inl (Or.inr rfl)
      · exact Or.inr ⟨e', he', hx⟩

theorem mem_uniqueNodes {x : String} {g : List Edge} :
    x ∈ uniqueNodes g ↔ ∃ e ∈ g, x = e.1 ∨ x = e.2 := by
  simp [uniqueNodes, mem_uniqueNodes_foldl]

theorem nodup_uniqueNodes : ∀ {g : List Edge}, (uniqueNodes g).Nodup := by
  intro g
  have : ∀ (g : List Edge) (acc : List String), acc.Nodup →
      (g.foldl (fun acc e => addUnique (addUnique acc e.1) e.2) acc).Nodup := by
    intro g
    induction g with
    | nil => exact fun acc h => h
    | cons e es ih =>
      intro acc h
      exact ih _ (nodup_addUnique (nodup_addUnique h))
  exact this g [] List.nodup_nil

theorem mem_uniqueNodes_left {g : List Edge} {u v : String} (h : (u, v) ∈ g) :
    u ∈ uniqueNodes g :=
  mem_uniqueNodes.mpr ⟨(u, v), h, Or.inl rfl⟩

theorem mem_uniqueNodes_right {g : List Edge} {u v : String} (h : (u, v) ∈ g) :
    v ∈ uniqueNodes g :=
  mem_uniqueNodes.mpr ⟨(u, v), h, Or.inr rfl⟩

theorem mem_children {g : List Edge} {n c : String} : c ∈ children g n ↔ (n, c) ∈ g := by
  simp only [children, List.mem_reverse, mem_dedupFirst, successors, List.mem_map,
    List.mem_filter]
  constructor
  · rintro ⟨e, ⟨he, hfst⟩, rfl⟩
    have : e.1 = n := by simpa using hfst
    exact this ▸ (by simpa using he)
  · intro h
    exact ⟨(n, c), ⟨h, by simp⟩, rfl⟩

theorem nodup_children {g : List Edge} {n : String} : (children g n).Nodup := by
  simpa [children] using List.nodup_reverse.mpr (nodup_dedupFirst (l := successors g n))

theorem children_subset {g : List Edge} {n c : String} (h : c ∈ children g n) :
    c ∈ uniqueNodes g :=
  mem_uniqueNodes_right (mem_children.mp h)

/-! ## DFS soundness -/

theorem goodAcc_nil {g : List Edge} : GoodAcc g [] := by
  intro l₁ u l₂ h
  exact absurd h (by simp)

theorem goodAcc_cons {g : List Edge} {acc : List String} {node : String}
    (h : GoodAcc g acc) (hsucc : ∀ v, (node, v) ∈ g → v ∈ acc) :
    GoodAcc g (node :: acc) := by
  intro l₁ u l₂ heq v hv
  cases l₁ with
  | nil =>
    have h1 : node = u ∧ acc = l₂ := by simpa using heq
    rcases h1 with ⟨rfl, rfl⟩
    exact hsucc v hv
  | cons a l₁' =>
    have h1 : node = a ∧ acc = l₁' ++ u :: l₂ := by simpa using heq
    exact h _ _ _ h1.2 v hv

theorem stInv_init {g : List Edge} : StInv g [] ⟨[], []⟩ := by
  refine ⟨List.nodup_nil, goodAcc_nil, ?_, ?_, ?_, ?_⟩ <;> simp

theorem dfsList_ok {g : List Edge} :
    ∀ (fuel : Nat) (cs preds : List String) (st st' : DfsState),
      dfsList g fuel cs preds st = .ok st' →
      (∀ c ∈ cs, c ∈ uniqueNodes g) → StInv g preds st →
      StInv g preds st' ∧ (∀ x ∈ st.visited, x ∈ st'.visited) ∧
        (∀ x ∈ st.acc, x ∈ st'.acc) ∧ (∀ c ∈ cs, c ∈ st'.acc) := by
  intro fuel
  induction fuel with
  | zero =>
    intro cs preds st st' h
    simp [dfsList] at h
  | succ fuel ih =>
    intro cs preds st st' h hcs hinv
    cases cs with
    | nil =>
      have hst : st = st' := by simpa [dfsList] using h
      subst hst
      exact ⟨hinv, fun x hx => hx, fun x hx => hx, by simp⟩
    | cons c cs =>
      by_cases hcp : c ∈ preds
      · simp [dfsList, hcp] at h
      · by_cases hcv : c ∈ st.visited
        · have h' : dfsList g fuel cs preds st = .ok st' := by
            simpa [dfsList, hcp, hcv] using h
          obtain ⟨inv', vmono, amono, hacc⟩ :=
            ih cs preds st st' h' (fun d hd => hcs d (List.mem_cons_of_mem _ hd)) hinv
          refine ⟨inv', vmono, amono, ?_⟩
          intro d hd
          rcases List.mem_cons.mp hd with rfl | hd'
          · rcases hinv.visitedAcc d hcv with hca | hcp'
            · exact amono d hca
            · exact absurd hcp' hcp
          · exact hacc d hd'
        · have hc : c ∈ uniqueNodes g := hcs c (List.mem_cons_self _ _)
          cases hrec : dfsList g fuel (children g c) (c :: preds) ⟨c :: st.visited, st.acc⟩ with
          | error e =>
            rw [show dfsList g (fuel + 1) (c :: cs) preds st = .error e from by
              simp [dfsList, hcp, hcv, hrec]] at h
            cases h
          | ok stc =>
            have h' : dfsList g fuel cs preds ⟨stc.visited, c :: stc.acc⟩ = .ok st' := by
              rw [show dfsList g (fuel + 1) (c :: cs) preds st =
                dfsList g fuel cs preds ⟨stc.visited, c :: stc.acc⟩ from by
                simp [dfsList, hcp, hcv, hrec]] at h
              exact h
            have hinvc : StInv g (c :: preds) ⟨c :: st.visited, st.acc⟩ := by
              refine ⟨hinv.nodupAcc, hinv.good, ?_, ?_, ?_, hinv.accNodes⟩
              · intro x hx
                exact List.mem_cons_of_mem _ (hinv.accVisited x hx)
              · intro x hx
                rcases List.mem_cons.mp hx with rfl | hx'
                · exact Or.inr (List.mem_cons_self _ _)
                · rcases hinv.visitedAcc x hx' with h1 | h1
                  · exact Or.inl h1
                  · exact Or.inr (List.mem_cons_of_mem _ h1)
              · intro x hx hxp
                rcases List.mem_cons.mp hxp with rfl | hxp'
                · exact hcv (hinv.accVisited x hx)
                · exact hinv.accPreds x hx hxp'
            obtain ⟨invc, vmonoc, amonoc, haccc⟩ :=
              ih (children g c) (c :: preds) _ stc hrec
                (fun d hd => children_subset hd) hinvc
            have hcnotacc : c ∉ stc.acc := fun hca =>
              invc.accPreds c hca (List.mem_cons_self _ _)
            have hinv2 : StInv g preds ⟨stc.visited, c :: stc.acc⟩ := by
              refine ⟨List.nodup_cons.mpr ⟨hcnotacc, invc.nodupAcc⟩,
                goodAcc_cons invc.good ?_, ?_, ?_, ?_, ?_⟩
              · intro v hv
                exact haccc v (mem_children.mpr hv)
              · intro x hx
                rcases List.mem_cons.mp hx with rfl | hx'
                · exact vmonoc x (List.mem_cons_self _ _)
                · exact invc.accVisited x hx'
              · intro x hx
                rcases invc.visitedAcc x hx with h1 | h1
                · exact Or.inl (List.mem_cons_of_mem _ h1)
                · rcases List.mem_cons.mp h1 with rfl | h1'
                  · exact Or.inl (List.mem_cons_self _ _)
                  · exact Or.inr h1'
              · intro x hx hxp
                rcases List.mem_cons.mp hx with rfl | hx'
                · exact hcp hxp
                · exact invc.accPreds x hx' (List.mem_cons_of_mem _ hxp)
              · intro x hx
                rcases List.mem_cons.mp hx with rfl | hx'
                · exact hc
                · exact invc.accNodes x hx'
            obtain ⟨inv', vmono', amono', hacc'⟩ :=
              ih cs preds _ st' h' (fun d hd => hcs d (List.mem_cons_of_mem _ hd)) hinv2
            refine ⟨inv', ?_, ?_, ?_⟩
            · intro x hx
              exact vmono' x (vmonoc x (List.mem_cons_of_mem _ hx))
            · intro x hx
              exact amono' x (List.mem_cons_of_mem _ (amonoc x hx))
            · intro d hd
              rcases List.mem_cons.mp hd with rfl | hd'
              · exact amono' d (List.mem_cons_self _ _)
              · exact hacc' d hd'

theorem length_le_of_nodup_subset {l l' : List String} (hnd : l.Nodup)
    (hsub : ∀ x ∈ l, x ∈ l') : l.length ≤ l'.length :=
  (List.Nodup.subperm hnd hsub).length_le

theorem mem_of_nodup_subset_length {l l' : List String} (hnd : l.Nodup)
    (hsub : ∀ x ∈ l, x ∈ l') (hlen : l'.length ≤ l.length) {x : String} (hx : x ∈ l') :
    x ∈ l :=
  ((List.Nodup.subperm hnd hsub).perm_of_length_le hlen).mem_iff.mpr hx

theorem dfsList_ne_fuelMsg {g : List Edge} :
    ∀ (fuel : Nat) (cs preds : List String) (st : DfsState),
      preds.Nodup → (∀ p ∈ preds, p ∈ uniqueNodes g) → (∀ c ∈ cs, c ∈ uniqueNodes g) →
      ((uniqueNodes g).length - preds.length) * ((uniqueNodes g).length + 1) + cs.length <
        fuel →
      dfsList g fuel cs preds st ≠ .error fuelMsg := by
  intro fuel
  induction fuel with
  | zero =>
    intro cs preds st _ _ _ hlt
    omega
  | succ fuel ih =>
    intro cs preds st hnd hps hcs hlt
    cases cs with
    | nil => simp [dfsList]
    | cons c cs =>
      by_cases hcp : c ∈ preds
      · simp [dfsList, hcp, cyclicMsg, fuelMsg]
      · by_cases hcv : c ∈ st.visited
        · rw [show dfsList g (fuel + 1) (c :: cs) preds st = dfsList g fuel cs preds st from
            by simp [dfsList, hcp, hcv]]
          simp only [List.length_cons] at hlt
          exact ih cs preds st hnd hps (fun d hd => hcs d (List.mem_cons_of_mem _ hd))
            (by omega)
        · simp only [List.length_cons] at hlt
          have hc : c ∈ uniqueNodes g := hcs c (List.mem_cons_self _ _)
          have hplen : preds.length < (uniqueNodes g).length := by
            by_contra hge
            push_neg at hge
            exact hcp (mem_of_nodup_subset_length hnd hps hge hc)
          have hchild_le : (children g c).length ≤ (uniqueNodes g).length :=
            length_le_of_nodup_subset nodup_children (fun x hx => children_subset hx)
          have hsplit : ((uniqueNodes g).length - preds.length) * ((uniqueNodes g).length + 1) =
              ((uniqueNodes g).length - (preds.length + 1)) * ((uniqueNodes g).length + 1) +
                ((uniqueNodes g).length + 1) := by
            rw [show (uniqueNodes g).length - preds.length =
              ((uniqueNodes g).length - (preds.length + 1)) + 1 from by omega]
            ring
          have hchildfuel :
              ((uniqueNodes g).length - (preds.length + 1)) * ((uniqueNodes g).length + 1) +
                (children g c).length < fuel := by
            omega
          have hchildOK := ih (children g c) (c :: preds) ⟨c :: st.visited, st.acc⟩
            (List.nodup_cons.mpr ⟨hcp, hnd⟩)
            (fun p hp => by
              rcases List.mem_cons.mp hp with rfl | hp'
              · exact hc
              · exact hps p hp')
            (fun d hd => children_subset hd)
            (by simpa using hchildfuel)
          cases hrec : dfsList g fuel (children g c) (c :: preds) ⟨c :: st.visited, st.acc⟩ with
          | error e =>
            rw [show dfsList g (fuel + 1) (c :: cs) preds st = .error e from by
              simp [dfsList, hcp, hcv, hrec]]
            intro hcontra
            rw [hrec] at hchildOK
            exact hchildOK (by rw [show e = fuelMsg from by simpa using hcontra])
          | ok stc =>
            rw [show dfsList g (fuel + 1) (c :: cs) preds st =
              dfsList g fuel cs preds ⟨stc.visited, c :: stc.acc⟩ from by
              simp [dfsList, hcp, hcv, hrec]]
            exact ih cs preds _ hnd hps (fun d hd => hcs d (List.mem_cons_of_mem _ hd))
              (by omega)

theorem dfsList_error_cases {g : List Edge} :
    ∀ (fuel : Nat) (cs preds : List String) (st : DfsState) (e : String),
      dfsList g fuel cs preds st = .error e → e = fuelMsg ∨ e = cyclicMsg := by
  intro fuel
  induction fuel with
  | zero =>
    intro cs preds st e h
    have he : fuelMsg = e := by simpa [dfsList] using h
    exact Or.inl he.symm
  | succ fuel ih =>
    intro cs preds st e h
    cases cs with
    | nil => simp [dfsList] at h
    | cons c cs =>
      by_cases hcp : c ∈ preds
      · have he : cyclicMsg = e := by simpa [dfsList, hcp] using h
        exact Or.inr he.symm
      · by_cases hcv : c ∈ st.visited
        · exact ih cs preds st e (by simpa [dfsList, hcp, hcv] using h)
        · cases hrec : dfsList g fuel (children g c) (c :: preds) ⟨c :: st.visited, st.acc⟩ with
          | error e' =>
            have he : e' = e := by
              rw [show dfsList g (fuel + 1) (c :: cs) preds st = .error e' from by
                simp [dfsList, hcp, hcv, hrec]] at h
              simpa using h
            exact ih _ _ _ _ (he ▸ hrec)
          | ok stc =>
            refine ih cs preds ⟨stc.visited, c :: stc.acc⟩ e ?_
            rw [show dfsList g (fuel + 1) (c :: cs) preds st =
              dfsList g fuel cs preds ⟨stc.visited, c :: stc.acc⟩ from by
              simp [dfsList, hcp, hcv, hrec]] at h
            exact h

theorem edgePath_append {g : List Edge} {a b d : String}
    (h : EdgePath g a b) (hd : (b, d) ∈ g) : EdgePath g a d := by
  induction h with
  | single h1 => exact .cons h1 (.single hd)
  | cons h1 _ ih => exact .cons h1 (ih hd)

theorem chain_path {g : List Edge} :
    ∀ (m : List String) (p c : String) (r : List String),
      Chain g (p :: (m ++ c :: r)) → c = p ∨ EdgePath g c p := by
  intro m
  induction m with
  | nil =>
    intro p c r h
    simp only [List.nil_append, Chain] at h
    exact Or.inr (.single h.1)
  | cons a m ih =>
    intro p c r h
    simp only [List.cons_append, Chain] at h
    rcases ih a c r h.2 with rfl | hpath
    · exact Or.inr (.single h.1)
    · exact Or.inr (edgePath_append hpath h.1)

theorem cycle_of_chain {g : List Edge} {p c : String} {rest : List String}
    (hchain : Chain g (p :: rest)) (hmem : c ∈ p :: rest) (hedge : (p, c) ∈ g) :
    HasCycle g := by
  rcases List.mem_cons.mp hmem with rfl | hmem'
  · exact ⟨c, .single hedge⟩
  · obtain ⟨l₁, l₂, rfl⟩ := List.append_of_mem hmem'
    rcases chain_path l₁ p c l₂ hchain with rfl | hpath
    · exact ⟨c, .single hedge⟩
    · exact ⟨c, edgePath_append hpath hedge⟩

theorem dfsList_error_cyclic {g : List Edge} :
    ∀ (fuel : Nat) (cs preds : List String) (st : DfsState),
      dfsList g fuel cs preds st = .error cyclicMsg →
      Chain g preds →
      (∀ d ∈ cs, ∀ p rest, preds = p :: rest → (p, d) ∈ g) →
      HasCycle g := by
  intro fuel
  induction fuel with
  | zero =>
    intro cs preds st h
    have : fuelMsg = cyclicMsg := by simpa [dfsList] using h
    exact absurd this (by decide)
  | succ fuel ih =>
    intro cs preds st h hchain hcs
    cases cs with
    | nil => simp [dfsList] at h
    | cons c cs =>
      by_cases hcp : c ∈ preds
      · cases preds with
        | nil => simp at hcp
        | cons p rest =>
          exact cycle_of_chain hchain hcp (hcs c (List.mem_cons_self _ _) p rest rfl)
      · by_cases hcv : c ∈ st.visited
        · exact ih cs preds st (by simpa [dfsList, hcp, hcv] using h) hchain
            (fun d hd => hcs d (List.mem_cons_of_mem _ hd))
        · cases hrec : dfsList g fuel (children g c) (c :: preds) ⟨c :: st.visited, st.acc⟩ with
          | error e' =>
            have he : e' = cyclicMsg := by
              rw [show dfsList g (fuel + 1) (c :: cs) preds st = .error e' from by
                simp [dfsList, hcp, hcv, hrec]] at h
              simpa using h
            refine ih (children g c) (c :: preds) ⟨c :: st.visited, st.acc⟩ (he ▸ hrec) ?_ ?_
            · cases preds with
              | nil => simp [Chain]
              | cons p rest =>
                simp only [Chain]
                exact ⟨hcs c (List.mem_cons_self _ _) p rest rfl, hchain⟩
            · intro d hd p' rest' hp'
              have : p' = c := by
                have := congrArg (fun l => l.head?) hp'
                simpa using this.symm
              subst this
              exact mem_children.mp hd
          | ok stc =>
            refine ih cs preds ⟨stc.visited, c :: stc.acc⟩ ?_ hchain
              (fun d hd => hcs d (List.mem_cons_of_mem _ hd))
            rw [show dfsList g (fuel + 1) (c :: cs) preds st =
              dfsList g fuel cs preds ⟨stc.visited, c :: stc.acc⟩ from by
              simp [dfsList, hcp, hcv, hrec]] at h
            exact h

theorem toposort_ok_spec {g : List Edge} {l : List String} (h : toposort g = .ok l) :
    l.Nodup ∧ (∀ x, x ∈ l ↔ x ∈ uniqueNodes g) ∧ GoodAcc g l := by
  simp only [toposort] at h
  cases hd : dfsList g (((uniqueNodes g).length + 1) * ((uniqueNodes g).length + 2))
      (uniqueNodes g).reverse [] ⟨[], []⟩ with
  | error e => rw [hd] at h; cases h
  | ok st =>
    rw [hd] at h
    have hl : st.acc = l := by
      injection h
    obtain ⟨inv, _, _, hcov⟩ :=
      dfsList_ok _ _ _ _ _ hd (fun c hc => List.mem_reverse.mp hc) stInv_init
    subst hl
    refine ⟨inv.nodupAcc, fun x => ⟨fun hx => inv.accNodes x hx,
      fun hx => hcov x (List.mem_reverse.mpr hx)⟩, inv.good⟩

theorem goodAcc_lt {g : List Edge} {l : List String} (hnd : l.Nodup) (hga : GoodAcc g l)
    {u v : String} (he : (u, v) ∈ g) (hu : u ∈ l) :
    v ∈ l ∧ l.indexOf u < l.indexOf v := by
  obtain ⟨l₁, l₂, rfl⟩ := List.append_of_mem hu
  have hv : v ∈ l₂ := hga l₁ u l₂ rfl v he
  obtain ⟨hnd₁, hnd₂, hdisj⟩ := List.nodup_append.mp hnd
  have hu1 : u ∉ l₁ := fun h1 => hdisj h1 (List.mem_cons_self _ _)
  have hv1 : v ∉ l₁ := fun h1 => hdisj h1 (List.mem_cons_of_mem _ hv)
  have hvu : u ≠ v := fun h1 => (List.nodup_cons.mp hnd₂).1 (h1 ▸ hv)
  constructor
  · exact List.mem_append.mpr (Or.inr (List.mem_cons_of_mem _ hv))
  · rw [List.indexOf_append_of_not_mem hu1, List.indexOf_append_of_not_mem hv1,
      List.indexOf_cons_self, List.indexOf_cons_ne _ hvu]
    omega

theorem edgePath_lt {g : List Edge} {l : List String} (hnd : l.Nodup) (hga : GoodAcc g l)
    (hcov : ∀ x, x ∈ l ↔ x ∈ uniqueNodes g) {u v : String} (hp : EdgePath g u v) :
    u ∈ l ∧ v ∈ l ∧ l.indexOf u < l.indexOf v := by
  induction hp with
  | single h =>
    have hu := (hcov _).mpr (mem_uniqueNodes_left h)
    obtain ⟨hv, hlt⟩ := goodAcc_lt hnd hga h hu
    exact ⟨hu, hv, hlt⟩
  | cons h _ ih =>
    have hu := (hcov _).mpr (mem_uniqueNodes_left h)
    obtain ⟨hv, hlt⟩ := goodAcc_lt hnd hga h hu
    obtain ⟨_, hw, hlt2⟩ := ih
    exact ⟨hu, hw, Nat.lt_trans hlt hlt2⟩

theorem toposort_error_spec {g : List Edge} {e : String} (h : toposort g = .error e) :
    e = cyclicMsg ∧ HasCycle g := by
  simp only [toposort] at h
  cases hd : dfsList g (((uniqueNodes g).length + 1) * ((uniqueNodes g).length + 2))
      (uniqueNodes g).reverse [] ⟨[], []⟩ with
  | ok st => rw [hd] at h; cases h
  | error e' =>
    rw [hd] at h
    have he : e' = e := by simpa using h
    subst he
    have harith : ((uniqueNodes g).length - (([] : List String)).length) *
        ((uniqueNodes g).length + 1) + ((uniqueNodes g).reverse).length <
        ((uniqueNodes g).length + 1) * ((uniqueNodes g).length + 2) := by
      simp only [List.length_nil, List.length_reverse, Nat.sub_zero]
      have hexp : ((uniqueNodes g).length + 1) * ((uniqueNodes g).length + 2) =
          (uniqueNodes g).length * ((uniqueNodes g).length + 1) +
            2 * (uniqueNodes g).length + 2 := by ring
      omega
    have hne := dfsList_ne_fuelMsg (((uniqueNodes g).length + 1) * ((uniqueNodes g).length + 2))
      (uniqueNodes g).reverse [] ⟨[], []⟩ List.nodup_nil (by simp)
      (fun c hc => List.mem_reverse.mp hc) harith
    have hcyc : e' = cyclicMsg := by
      rcases dfsList_error_cases _ _ _ _ _ hd with hf | hc
      · exact absurd (hf ▸ hd) hne
      · exact hc
    subst hcyc
    refine ⟨rfl, dfsList_error_cyclic _ _ _ _ hd (by simp [Chain]) ?_⟩
    intro d _ p rest hp
    cases hp

theorem toposort_cyclic {g : List Edge} (h : HasCycle g) : toposort g = .error cyclicMsg := by
  cases htp : toposort g with
  | ok l =>
    obtain ⟨hnd, hcov, hga⟩ := toposort_ok_spec htp
    obtain ⟨u, hu⟩ := h
    obtain ⟨_, _, hlt⟩ := edgePath_lt hnd hga hcov hu
    omega
  | error e =>
    rw [(toposort_error_spec htp).1]

theorem toposort_ok_of_acyclic {g : List Edge} (h : ¬HasCycle g) :
    ∃ l, toposort g = .ok l := by
  cases htp : toposort g with
  | ok l => exact ⟨l, rfl⟩
  | error e => exact absurd (toposort_error_spec htp).2 h

theorem edgePath_mono {g g' : List Edge} (hsub : ∀ e ∈ g, e ∈ g') {u v : String}
    (hp : EdgePath g u v) : EdgePath g' u v := by
  induction hp with
  | single h => exact .single (hsub _ h)
  | cons h _ ih => exact .cons (hsub _ h) ih

theorem hasCycle_mono {g g' : List Edge} (hsub : ∀ e ∈ g, e ∈ g') (h : HasCycle g) :
    HasCycle g' := by
  obtain ⟨u, hu⟩ := h
  exact ⟨u, edgePath_mono hsub hu⟩

theorem edgePath_edge_exists {g : List Edge} {u v : String} (hp : EdgePath g u v) :
    ∃ e, e ∈ g := by
  cases hp with
  | single h => exact ⟨_, h⟩
  | cons h _ => exact ⟨_, h⟩

/-! ## `topologicalSort` level results -/

theorem topologicalSort_cyclic {nodes : List Node} {connections : List Connection}
    (h : HasCycle (connEdges connections)) :
    topologicalSort nodes connections = .error cycleErrorMsg := by
  have hne : connections.length ≠ 0 := by
    intro h0
    obtain ⟨u, hu⟩ := h
    obtain ⟨e, he⟩ := edgePath_edge_exists hu
    rw [List.length_eq_zero.mp h0] at he
    simp [connEdges] at he
  have hfull : HasCycle (fullEdges nodes connections) :=
    hasCycle_mono (fun e he => List.mem_append.mpr (Or.inl he)) h
  simp only [topologicalSort, if_neg hne, toposort_cyclic hfull]
  rw [show msgHasCyclic cyclicMsg = true from rfl]
  simp

theorem topologicalSort_mem_nodes {nodes : List Node} {connections : List Connection}
    {l : List Node} (h : topologicalSort nodes connections = .ok l) :
    ∀ n ∈ l, n ∈ nodes := by
  by_cases h0 : connections.length = 0
  · simp only [topologicalSort, if_pos h0] at h
    intro n hn
    rw [show nodes = l from by simpa using h]
    exact hn
  · simp only [topologicalSort, if_neg h0] at h
    cases htp : toposort (fullEdges nodes connections) with
    | error e => rw [htp] at h; by_cases hc : msgHasCyclic e <;> simp [hc] at h
    | ok ids =>
      rw [htp] at h
      simp only at h
      have hl : (dedupFirst ids).filterMap (nodeMapGet nodes) = l := by simpa using h
      intro n hn
      rw [← hl] at hn
      obtain ⟨id, _, hfind⟩ := List.mem_filterMap.mp hn
      exact List.mem_reverse.mp (List.mem_of_find?_eq_some hfind)

theorem topologicalSort_ok_of_acyclic {nodes : List Node} {connections : List Connection}
    (hne : connections.length ≠ 0) (h : ¬HasCycle (fullEdges nodes connections)) :
    ∃ l, topologicalSort nodes connections = .ok l ∧ ∀ n ∈ l, n ∈ nodes := by
  obtain ⟨ids, hids⟩ := toposort_ok_of_acyclic h
  refine ⟨(dedupFirst ids).filterMap (nodeMapGet nodes), ?_, ?_⟩
  · simp only [topologicalSort, if_neg hne, hids]
  · intro n hn
    obtain ⟨id, _, hfind⟩ := List.mem_filterMap.mp hn
    exact List.mem_reverse.mp (List.mem_of_find?_eq_some hfind)

/-! ## Run orchestrator lemmas -/

theorem runNodes_foldsTo {registry : Registry} :
    ∀ (ns : List Node) (context final : Ctx), FoldsTo registry ns context final →
      runNodes registry ns context = (ns.map (fun n => n.id), .ok final) := by
  intro ns
  induction ns with
  | nil =>
    intro context final h
    rw [show final = context from h]
    rfl
  | cons n ns ih =>
    intro context final h
    obtain ⟨ex, context', hge, hex, hrest⟩ := h
    simp [runNodes, hge, hex, ih context' final hrest]

theorem runNodes_failsAt {registry : Registry} :
    ∀ (pre : List Node) (nk : Node) (post : List Node) (context ck : Ctx)
      (ex : Executor) (err : String),
      FoldsTo registry pre context ck →
      getExecutor registry nk.type = .ok ex →
      ex nk ck = .error err →
      runNodes registry (pre ++ nk :: post) context =
        (pre.map (fun n => n.id) ++ [nk.id], .error err) := by
  intro pre
  induction pre with
  | nil =>
    intro nk post context ck ex err hf hge hex
    rw [show ck = context from hf] at hex
    simp [runNodes, hge, hex]
  | cons n pre ih =>
    intro nk post context ck ex err hf hge hex
    obtain ⟨ex', context', hge', hex', hrest⟩ := hf
    simp [runNodes, hge', hex', ih nk post context' ck ex err hrest hge hex]

theorem runNodes_dispatchFails {registry : Registry} :
    ∀ (pre : List Node) (nk : Node) (post : List Node) (context ck : Ctx),
      FoldsTo registry pre context ck →
      registry.lookup nk.type = none →
      runNodes registry (pre ++ nk :: post) context =
        (pre.map (fun n => n.id),
          .error ("No executor found for node type: " ++ nk.type)) := by
  intro pre
  induction pre with
  | nil =>
    intro nk post context ck hf hlk
    simp [runNodes, getExecutor, hlk]
  | cons n pre ih =>
    intro nk post context ck hf hlk
    obtain ⟨ex', context', hge', hex', hrest⟩ := hf
    simp [runNodes, hge', hex', ih nk post context' ck hrest hlk]

/-! ## Template scanner lemmas -/

theorem takeWhile_decomp {p : Char → Bool} :
    ∀ l : List Char, l = l.takeWhile p ++ l.drop (l.takeWhile p).length := by
  intro l
  induction l with
  | nil => rfl
  | cons a l ih =>
    by_cases hp : p a
    · rw [List.takeWhile_cons]
      simp only [hp, if_true, List.length_cons, List.drop_succ_cons, List.cons_append]
      exact congrArg (a :: ·) ih
    · rw [List.takeWhile_cons]
      simp [hp]

theorem takeWhile_ne_append {S : List Char} (hS : cbrace ∉ S) (rest : List Char) :
    (S ++ cbrace :: rest).takeWhile (fun x => x ≠ cbrace) = S := by
  induction S with
  | nil => simp [List.takeWhile_cons]
  | cons a S ih =>
    have ha : a ≠ cbrace := fun h => hS (by simp [h])
    rw [List.cons_append, List.takeWhile_cons, if_pos (by simp [ha])]
    exact congrArg (a :: ·) (ih (fun h => hS (List.mem_cons_of_mem _ h)))

theorem tokenSplit_of_token {S b : List Char} (hne : S ≠ []) (hnc : cbrace ∉ S) :
    tokenSplit (S ++ cbrace :: cbrace :: b) = some (S, b) := by
  have htw := takeWhile_ne_append hnc (cbrace :: b)
  cases S with
  | nil => exact absurd rfl hne
  | cons s0 S' =>
    simp only [tokenSplit, htw, List.drop_left]
    simp

theorem tokenSplit_some {rest S after : List Char} (h : tokenSplit rest = some (S, after)) :
    rest = S ++ cbrace :: cbrace :: after ∧ S ≠ [] ∧ cbrace ∉ S := by
  have hdecomp := takeWhile_decomp (p := fun x => x ≠ cbrace) rest
  have hmem : cbrace ∉ rest.takeWhile (fun x => x ≠ cbrace) := by
    intro hc
    have := List.mem_takeWhile_imp hc
    simp at this
  simp only [tokenSplit] at h
  split at h
  · rename_i head tail b1 b2 after' heq1 heq2
    split at h
    · rename_i hb
      obtain ⟨rfl, rfl⟩ := hb
      obtain ⟨hS1, rfl⟩ : rest.takeWhile (fun x => x ≠ cbrace) = S ∧ after' = after := by
        have hinj := Option.some.inj h
        exact ⟨congrArg Prod.fst hinj, congrArg Prod.snd hinj⟩
      refine ⟨hdecomp.trans (by rw [heq2, hS1]), ?_, hS1 ▸ hmem⟩
      rw [← hS1, heq1]
      simp
    · simp at h
  · simp at h

theorem rtvAux_lit_append (context : Ctx) :
    ∀ (s : List Char) (fuel : Nat) (rest : List Char), obrace ∉ s →
      s.length + rest.length ≤ fuel →
      rtvAux context fuel (s ++ rest) = s ++ rtvAux context (fuel - s.length) rest := by
  intro s
  induction s with
  | nil =>
    intro fuel rest _ _
    simp
  | cons a s ih =>
    intro fuel rest hnb hlen
    have ha : a ≠ obrace := fun h => hnb (by simp [h])
    cases fuel with
    | zero => simp at hlen
    | succ fuel =>
      simp only [List.cons_append, rtvAux, if_neg ha, List.append_eq]
      rw [ih fuel rest (fun h => hnb (List.mem_cons_of_mem _ h))
        (by simp only [List.length_cons] at hlen; omega)]
      simp [List.length_cons, Nat.succ_sub_succ]

theorem rtvAux_tok_step (context : Ctx) {S b : List Char} (hne : S ≠ []) (hnc : cbrace ∉ S)
    (fuel : Nat) :
    rtvAux context (fuel + 1) (obrace :: obrace :: (S ++ cbrace :: cbrace :: b)) =
      substToken context S ++ rtvAux context fuel b := by
  simp [rtvAux, tokenSplit_of_token hne hnc]

theorem renderPiece_tok_data (context : Ctx) (s : String) :
    (renderPiece context (.tok s)).data = substToken context s.data := by
  cases hrt : resolveToken context s.data with
  | none => simp [renderPiece, substToken, hrt, pieceText]
  | some fv =>
    obtain ⟨flag, v⟩ := fv
    cases flag <;> simp [renderPiece, substToken, hrt]

theorem rtv_chunks (context : Ctx) :
    ∀ (ps : List Piece) (fuel : Nat), (∀ p ∈ ps, pieceOK p) →
      (assembleChars ps).length ≤ fuel →
      rtvAux context fuel (assembleChars ps) = renderChars context ps := by
  intro ps
  induction ps with
  | nil =>
    intro fuel _ _
    cases fuel <;> rfl
  | cons p ps ih =>
    intro fuel hok hlen
    have hokp := hok p (List.mem_cons_self _ _)
    have hokps := fun q hq => hok q (List.mem_cons_of_mem _ hq)
    cases p with
    | lit s =>
      have hchars : assembleChars (Piece.lit s :: ps) = s.data ++ assembleChars ps := by
        simp [assembleChars, pieceText]
      have hrender : renderChars context (Piece.lit s :: ps) =
          s.data ++ renderChars context ps := by
        simp [renderChars, renderPiece]
      rw [hchars] at hlen ⊢
      rw [hrender, rtvAux_lit_append context s.data fuel (assembleChars ps) hokp
        (by simp only [List.length_append] at hlen; omega)]
      rw [ih (fuel - s.data.length) hokps
        (by simp only [List.length_append] at hlen; omega)]
    | tok s =>
      obtain ⟨hne, hnc⟩ := hokp
      have hchars : assembleChars (Piece.tok s :: ps) =
          obrace :: obrace :: (s.data ++ cbrace :: cbrace :: assembleChars ps) := by
        simp [assembleChars, pieceText]
      have hrender : renderChars context (Piece.tok s :: ps) =
          substToken context s.data ++ renderChars context ps := by
        simp only [renderChars, List.map_cons, List.flatten_cons, renderPiece_tok_data]
      rw [hchars] at hlen ⊢
      cases fuel with
      | zero => simp at hlen
      | succ fuel =>
        rw [hrender, rtvAux_tok_step context hne hnc fuel]
        rw [ih fuel hokps
          (by simp only [List.length_cons, List.length_append] at hlen; omega)]

theorem hasTok_cons {c : Char} {cs : List Char} (h : HasTok cs) : HasTok (c :: cs) := by
  obtain ⟨a, S, b, hdec, hne, hnc⟩ := h
  exact ⟨c :: a, S, b, by rw [hdec]; rfl, hne, hnc⟩

theorem rtvAux_noTok (context : Ctx) :
    ∀ (fuel : Nat) (cs : List Char), cs.length ≤ fuel → ¬HasTok cs →
      rtvAux context fuel cs = cs := by
  intro fuel
  induction fuel with
  | zero =>
    intro cs _ _
    rfl
  | succ fuel ih =>
    intro cs hlen hnt
    cases cs with
    | nil => rfl
    | cons c cs =>
      have hnt' : ¬HasTok cs := fun h => hnt (hasTok_cons h)
      simp only [List.length_cons] at hlen
      by_cases hc : c = obrace
      · subst hc
        cases cs with
        | nil => rfl
        | cons c2 rest =>
          by_cases hc2 : c2 = obrace
          · subst hc2
            cases hts : tokenSplit rest with
            | some Sa =>
              obtain ⟨S, after⟩ := Sa
              obtain ⟨hrest, hne, hnc⟩ := tokenSplit_some hts
              exact absurd ⟨[], S, after, by rw [hrest]; rfl, hne, hnc⟩ hnt
            | none =>
              have hstep : rtvAux context (fuel + 1) (obrace :: obrace :: rest) =
                  obrace :: rtvAux context fuel (obrace :: rest) := by
                simp [rtvAux, hts]
              rw [hstep, ih (obrace :: rest)
                (by simp only [List.length_cons] at hlen ⊢; omega) hnt']
          · have hstep : rtvAux context (fuel + 1) (obrace :: c2 :: rest) =
                obrace :: rtvAux context fuel (c2 :: rest) := by
              simp [rtvAux, hc2]
            rw [hstep, ih (c2 :: rest)
              (by simp only [List.length_cons] at hlen ⊢; omega) hnt']
      · have hstep : rtvAux context (fuel + 1) (c :: cs) = c :: rtvAux context fuel cs := by
          simp [rtvAux, hc]
        rw [hstep, ih cs (by omega) hnt']

theorem noTok_of_no_obrace {l : List Char} (h : obrace ∉ l) : ¬HasTok l := by
  rintro ⟨a, S, b, hdec, _, _⟩
  exact h (by rw [hdec]; simp)

theorem not_hasCycle_of_toposort_ok {g : List Edge} {l : List String}
    (h : toposort g = .ok l) : ¬HasCycle g := by
  rintro ⟨u, hu⟩
  obtain ⟨hnd, hcov, hga⟩ := toposort_ok_spec h
  obtain ⟨_, _, hlt⟩ := edgePath_lt hnd hga hcov hu
  omega

/-! ## The claims -/

/-- C1: the claim fails on the code.  On the acyclic input with nodes `a`,
`b`, `c` and the single connection `a → b` — every endpoint a node identifier —
`topologicalSort` does not succeed with `a` before `b`: the self-edge the code
adds for the isolated node `c` is reported as a cycle by the toposort library,
so the cycle error is thrown instead. -/
theorem claim_C1_failing_eval :
    topologicalSort [⟨"a", "T", []⟩, ⟨"b", "T", []⟩, ⟨"c", "T", []⟩]
      [⟨"a", "b"⟩] = .error "Workflow contains a cycle" := rfl

/-- C2: the claim fails on the code.  With no connections every node is
returned exactly once, but on a non-empty connection list with an isolated
node — acyclic per the claim — `topologicalSort` throws the cycle error
instead of listing each node once: the isolated node's synthetic self-edge is
itself a cycle for the library. -/
theorem claim_C2_failing_eval :
    topologicalSort [⟨"X", "T", []⟩, ⟨"Y", "T", []⟩] [] =
      .ok [⟨"X", "T", []⟩, ⟨"Y", "T", []⟩] ∧
    topologicalSort [⟨"X", "T", []⟩, ⟨"Y", "T", []⟩, ⟨"Z", "T", []⟩]
      [⟨"X", "Y"⟩] = .error "Workflow contains a cycle" := ⟨rfl, rfl⟩

/-- C3: a cycle in the connection graph makes `topologicalSort` raise the
cycle error "Workflow contains a cycle" rather than return an order, and
`executeWorkflow` then invokes no executor: its invocation trace is empty and
the failure comes from the prepare step, before the execution loop. -/
theorem claim_C3_cycle_aborts (registry : Registry) (workflowId : String)
    (nodes : List Node) (connections : List Connection) (initialData? : Option Ctx)
    (h : HasCycle (connEdges connections)) :
    topologicalSort nodes connections = .error "Workflow contains a cycle" ∧
    executeWorkflow registry (some workflowId) nodes connections initialData? =
      ([], .error "Workflow contains a cycle") := by
  have ht := @topologicalSort_cyclic nodes connections h
  exact ⟨ht, by simp [executeWorkflow, ht, cycleErrorMsg]⟩

/-- C3 witness: the two-node cycle `a → b → a`. -/
theorem claim_C3_witness :
    topologicalSort [⟨"a", "T", []⟩, ⟨"b", "T", []⟩] [⟨"a", "b"⟩, ⟨"b", "a"⟩] =
      .error "Workflow contains a cycle" ∧
    executeWorkflow [] (some "w") [⟨"a", "T", []⟩, ⟨"b", "T", []⟩]
      [⟨"a", "b"⟩, ⟨"b", "a"⟩] none = ([], .error "Workflow contains a cycle") :=
  claim_C3_cycle_aborts [] "w" _ _ none
    ⟨"a", .cons (v := "b") (by decide) (.single (by decide))⟩

/-- C4: when every dispatch and executor invocation succeeds — `FoldsTo`
states that node k receives exactly the context node k-1 returned, starting
from the trigger payload or the empty mapping — `executeWorkflow` returns the
workflow id together with the folded final context, having invoked every node
in scheduler order. -/
theorem claim_C4_context_fold (registry : Registry) (workflowId : String)
    (nodes : List Node) (connections : List Connection) (initialData? : Option Ctx)
    (sortedNodes : List Node) (final : Ctx)
    (hsort : topologicalSort nodes connections = .ok sortedNodes)
    (hfold : FoldsTo registry sortedNodes (initialData?.getD []) final) :
    executeWorkflow registry (some workflowId) nodes connections initialData? =
      (sortedNodes.map (fun n => n.id), .ok (workflowId, final)) := by
  simp [executeWorkflow, hsort, runNodes_foldsTo sortedNodes _ final hfold]

/-- C4 witness: two chained nodes, each adding its own key to the context. -/
theorem claim_C4_witness :
    executeWorkflow [("T", fun n c => .ok ((n.id, .num 1) :: c))] (some "w")
      [⟨"a", "T", []⟩, ⟨"b", "T", []⟩] [⟨"a", "b"⟩] none =
      (["a", "b"], .ok ("w", [("b", .num 1), ("a", .num 1)])) :=
  claim_C4_context_fold _ _ _ _ _ [⟨"a", "T", []⟩, ⟨"b", "T", []⟩]
    [("b", .num 1), ("a", .num 1)] rfl ⟨_, _, rfl, rfl, _, _, rfl, rfl, rfl⟩

/-- C5: a failing executor invocation at node k ends the run as failed with
exactly the nodes up to and including k invoked; under unique node ids, no
node after k ever appears in the invocation trace. -/
theorem claim_C5_failure_aborts_rest (registry : Registry) (workflowId : String)
    (nodes : List Node) (connections : List Connection) (initialData? : Option Ctx)
    (pre : List Node) (nk : Node) (post : List Node) (ck : Ctx) (ex : Executor)
    (err : String)
    (hsort : topologicalSort nodes connections = .ok (pre ++ nk :: post))
    (hids : ((pre ++ nk :: post).map (fun n => n.id)).Nodup)
    (hfold : FoldsTo registry pre (initialData?.getD []) ck)
    (hge : getExecutor registry nk.type = .ok ex)
    (hex : ex nk ck = .error err) :
    executeWorkflow registry (some workflowId) nodes connections initialData? =
      (pre.map (fun n => n.id) ++ [nk.id], .error err) ∧
    ∀ m ∈ post, m.id ∉ pre.map (fun n => n.id) ++ [nk.id] := by
  constructor
  · simp [executeWorkflow, hsort, runNodes_failsAt pre nk post _ ck ex err hfold hge hex]
  · intro m hm
    have hmap : (pre.map (fun n => n.id) ++ nk.id :: post.map (fun n => n.id)).Nodup := by
      simpa using hids
    obtain ⟨h1, h2, hdisj⟩ := List.nodup_append.mp hmap
    have hmid : m.id ∈ post.map (fun n => n.id) := List.mem_map.mpr ⟨m, hm, rfl⟩
    intro hmem
    rcases List.mem_append.mp hmem with hin | hin
    · exact hdisj hin (List.mem_cons_of_mem _ hmid)
    · have heq : m.id = nk.id := by simpa using hin
      exact (List.nodup_cons.mp h2).1 (heq ▸ hmid)

/-- C5 witness: three chained nodes where the middle one fails; the third is
never invoked. -/
theorem claim_C5_witness :
    executeWorkflow
        [("T", fun n c => .ok ((n.id, .num 1) :: c)), ("B", fun _ _ => .error "boom")]
        (some "w") [⟨"a", "T", []⟩, ⟨"k", "B", []⟩, ⟨"m", "T", []⟩]
        [⟨"a", "k"⟩, ⟨"k", "m"⟩] none = (["a", "k"], .error "boom") ∧
    ∀ m ∈ [(⟨"m", "T", []⟩ : Node)], m.id ∉ ["a", "k"] := by
  have h := claim_C5_failure_aborts_rest
    [("T", fun n c => .ok ((n.id, .num 1) :: c)), ("B", fun _ _ => .error "boom")]
    "w" [⟨"a", "T", []⟩, ⟨"k", "B", []⟩, ⟨"m", "T", []⟩] [⟨"a", "k"⟩, ⟨"k", "m"⟩]
    none [⟨"a", "T", []⟩] ⟨"k", "B", []⟩ [⟨"m", "T", []⟩] [("a", .num 1)] _ "boom"
    rfl (by decide) ⟨_, _, rfl, rfl, rfl⟩ rfl rfl
  exact ⟨h.1, h.2⟩

/-- C6: counterexample to the claim as stated.  Two runs fail at the second
node while their contexts after the last successfully completed node differ
(`[("k","x")]` against `[("k","y")]`), yet `executeWorkflow` produces
identical outputs: the surfaced failure therefore cannot carry that context —
the code lets the raised error propagate and the context is dropped. -/
theorem claim_C6_counterexample :
    executeWorkflow
        [("ok", fun _ c => .ok c), ("boom", fun _ _ => .error "boom")] (some "w")
        [⟨"n1", "ok", []⟩, ⟨"n2", "boom", []⟩] [⟨"n1", "n2"⟩]
        (some [("k", .str "x")]) =
      executeWorkflow
        [("ok", fun _ c => .ok c), ("boom", fun _ _ => .error "boom")] (some "w")
        [⟨"n1", "ok", []⟩, ⟨"n2", "boom", []⟩] [⟨"n1", "n2"⟩]
        (some [("k", .str "y")]) ∧
    runNodes [("ok", fun _ c => .ok c), ("boom", fun _ _ => .error "boom")]
        [⟨"n1", "ok", []⟩] [("k", .str "x")] = (["n1"], .ok [("k", .str "x")]) ∧
    runNodes [("ok", fun _ c => .ok c), ("boom", fun _ _ => .error "boom")]
        [⟨"n1", "ok", []⟩] [("k", .str "y")] = (["n1"], .ok [("k", .str "y")]) ∧
    ([("k", JsonValue.str "x")] : Ctx) ≠ [("k", JsonValue.str "y")] := by
  refine ⟨rfl, rfl, rfl, fun h => ?_⟩
  simp at h

/-- C6 amended: a run that fails during execution surfaces exactly the error
the failing node raised — the failure kind — and nothing else: the context
after the last successful node is not part of the surfaced failure. -/
theorem claim_C6_amended (registry : Registry) (workflowId : String)
    (nodes : List Node) (connections : List Connection) (initialData? : Option Ctx)
    (pre : List Node) (nk : Node) (post : List Node) (ck : Ctx) (ex : Executor)
    (err : String)
    (hsort : topologicalSort nodes connections = .ok (pre ++ nk :: post))
    (hfold : FoldsTo registry pre (initialData?.getD []) ck)
    (hge : getExecutor registry nk.type = .ok ex)
    (hex : ex nk ck = .error err) :
    (executeWorkflow registry (some workflowId) nodes connections initialData?).2 =
      .error err := by
  simp [executeWorkflow, hsort, runNodes_failsAt pre nk post _ ck ex err hfold hge hex]

/-- C6 witness: the amended statement at the counterexample's first run. -/
theorem claim_C6_witness :
    (executeWorkflow
        [("ok", fun _ c => .ok c), ("boom", fun _ _ => .error "boom")] (some "w")
        [⟨"n1", "ok", []⟩, ⟨"n2", "boom", []⟩] [⟨"n1", "n2"⟩]
        (some [("k", .str "x")])).2 = .error "boom" :=
  claim_C6_amended _ "w" _ _ _ [⟨"n1", "ok", []⟩] ⟨"n2", "boom", []⟩ []
    [("k", .str "x")] _ "boom" rfl ⟨_, _, rfl, rfl, rfl⟩ rfl rfl

/-- C7: template interpolation on a text assembled from literal runs (free of
opening braces) and tokens processes every token — multiple and repeated
tokens included: each token whose dotted path resolves is replaced by the
JSON encoding of the value when the json flag is present and by its string
form otherwise, and unresolved tokens stay verbatim (`renderPiece` spells
out exactly these three cases). -/
theorem claim_C7_interpolation (context : Ctx) (ps : List Piece)
    (hps : ∀ p ∈ ps, pieceOK p) :
    replaceTemplateVariables (assemble ps) context =
      String.mk (renderChars context ps) := by
  show String.mk (rtvAux context (assembleChars ps).length (assembleChars ps)) = _
  rw [rtv_chunks context ps (assembleChars ps).length hps (Nat.le_refl _)]

/-- C7 witness: the spec's concrete scenarios, and a repeated token. -/
theorem claim_C7_witness :
    replaceTemplateVariables (assemble [.lit "Hello ", .tok "user.name"])
        [("user", .obj [("name", .str "Ana")])] = "Hello Ana" ∧
    replaceTemplateVariables (assemble [.tok "json items"])
        [("items", .arr [.num 1, .num 2])] = "[1,2]" ∧
    replaceTemplateVariables (assemble [.tok "x", .lit " and ", .tok "x"])
        [("x", .num 7)] = "7 and 7" := by
  refine ⟨(claim_C7_interpolation _ _ ?_).trans rfl,
    (claim_C7_interpolation _ _ ?_).trans rfl,
    (claim_C7_interpolation _ _ ?_).trans rfl⟩
  · intro p hp
    rcases List.mem_cons.mp hp with rfl | hp
    · exact show obrace ∉ ("Hello ").data by decide
    · rcases List.mem_cons.mp hp with rfl | hp
      · exact ⟨by decide, by decide⟩
      · cases hp
  · intro p hp
    rcases List.mem_cons.mp hp with rfl | hp
    · exact ⟨by decide, by decide⟩
    · cases hp
  · intro p hp
    rcases List.mem_cons.mp hp with rfl | hp
    · exact ⟨by decide, by decide⟩
    · rcases List.mem_cons.mp hp with rfl | hp
      · exact show obrace ∉ (" and ").data by decide
      · rcases List.mem_cons.mp hp with rfl | hp
        · exact ⟨by decide, by decide⟩
        · cases hp

/-- C8: interpolation is the identity on text containing no token, and an
assembly all of whose tokens fail to resolve is returned verbatim, with no
error raised. -/
theorem claim_C8_identity_unresolved :
    (∀ (text : String) (context : Ctx), ¬HasTok text.data →
      replaceTemplateVariables text context = text) ∧
    (∀ (context : Ctx) (ps : List Piece), (∀ p ∈ ps, pieceOK p) →
      (∀ s, Piece.tok s ∈ ps → resolveToken context s.data = none) →
      replaceTemplateVariables (assemble ps) context = assemble ps) := by
  constructor
  · intro text context hnt
    show String.mk (rtvAux context text.data.length text.data) = text
    rw [rtvAux_noTok context text.data.length text.data (Nat.le_refl _) hnt]
  · intro context ps hok hunres
    show String.mk (rtvAux context (assembleChars ps).length (assembleChars ps)) =
      String.mk (assembleChars ps)
    rw [rtv_chunks context ps _ hok (Nat.le_refl _)]
    have hmap : ∀ q ∈ ps, (renderPiece context q).data = (pieceText q).data := by
      intro q hq
      cases q with
      | lit s => rfl
      | tok s =>
        rw [renderPiece_tok_data]
        simp [substToken, hunres s hq, pieceText]
    have : renderChars context ps = assembleChars ps := by
      unfold renderChars assembleChars
      exact congrArg List.flatten (List.map_congr_left hmap)
    rw [this]

/-- C8 witness: token-free text, and a token whose path resolves nowhere. -/
theorem claim_C8_witness :
    replaceTemplateVariables "already resolved." [("a", .num 7)] =
      "already resolved." ∧
    replaceTemplateVariables (assemble [.tok "missing.path"]) [("a", .num 7)] =
      assemble [.tok "missing.path"] := by
  constructor
  · exact claim_C8_identity_unresolved.1 _ _ (noTok_of_no_obrace (by decide))
  · refine claim_C8_identity_unresolved.2 _ _ ?_ ?_
    · intro p hp
      rcases List.mem_cons.mp hp with rfl | hp
      · exact ⟨by decide, by decide⟩
      · cases hp
    · intro s hs
      rcases List.mem_cons.mp hs with heq | hs
      · injection heq with h
        subst h
        rfl
      · cases hs

/-- C9: `getExecutor` returns the registered executor of a tag, and fails
with the unknown-node-type error exactly when the tag has no registry entry;
a run reaching a node of unregistered type fails there with that error, with
no executor invoked at or from that node — its invocation trace stops at the
preceding nodes, so the context is the one from before that node. -/
theorem claim_C9_unknown_type :
    (∀ (registry : Registry) (t : String),
      (∃ ex, registry.lookup t = some ex ∧ getExecutor registry t = .ok ex) ∨
      (registry.lookup t = none ∧
        getExecutor registry t = .error ("No executor found for node type: " ++ t))) ∧
    (∀ (registry : Registry) (workflowId : String) (nodes : List Node)
      (connections : List Connection) (initialData? : Option Ctx)
      (pre : List Node) (nk : Node) (post : List Node) (ck : Ctx),
      topologicalSort nodes connections = .ok (pre ++ nk :: post) →
      FoldsTo registry pre (initialData?.getD []) ck →
      registry.lookup nk.type = none →
      executeWorkflow registry (some workflowId) nodes connections initialData? =
        (pre.map (fun n => n.id),
          .error ("No executor found for node type: " ++ nk.type))) := by
  constructor
  · intro registry t
    cases hlk : registry.lookup t with
    | some ex => exact Or.inl ⟨ex, rfl, by simp [getExecutor, hlk]⟩
    | none => exact Or.inr ⟨rfl, by simp [getExecutor, hlk]⟩
  · intro registry workflowId nodes connections initialData? pre nk post ck hsort hfold hlk
    simp [executeWorkflow, hsort, runNodes_dispatchFails pre nk post _ ck hfold hlk]

/-- C9 witness: a node of type WEBHOOK with no registry entry aborts the run
at that node with the unknown-node-type error. -/
theorem claim_C9_witness :
    executeWorkflow [("T", fun _ c => .ok c)] (some "w")
      [⟨"a", "T", []⟩, ⟨"u", "WEBHOOK", []⟩] [⟨"a", "u"⟩] none =
      (["a"], .error "No executor found for node type: WEBHOOK") ∧
    getExecutor [("T", fun _ c => (.ok c : Except String Ctx))] "WEBHOOK" =
      .error "No executor found for node type: WEBHOOK" := by
  constructor
  · exact claim_C9_unknown_type.2 _ "w" _ _ none [⟨"a", "T", []⟩] ⟨"u", "WEBHOOK", []⟩
      [] _ rfl ⟨_, _, rfl, rfl, rfl⟩ rfl
  · rcases claim_C9_unknown_type.1 [("T", fun _ c => (.ok c : Except String Ctx))]
      "WEBHOOK" with ⟨ex, hsome, _⟩ | ⟨_, herr⟩
    · simp [List.lookup] at hsome
    · exact herr

/-- C10: connection endpoints matching no node raise no error of their own:
the library sorts identifiers, the node-map lookup of an unmatched identifier
yields nothing and the Boolean filter drops it.  First, every element of any
successful output is one of the input node objects; second, an input with a
dangling endpoint still sorts whenever the full edge list (self-edges
included) is acyclic, the unmatched identifiers silently omitted. -/
theorem claim_C10_dangling_refs :
    (∀ (nodes : List Node) (connections : List Connection) (l : List Node),
      topologicalSort nodes connections = .ok l → ∀ n ∈ l, n ∈ nodes) ∧
    (∀ (nodes : List Node) (connections : List Connection),
      connections.length ≠ 0 →
      (∃ c ∈ connections, (∀ n ∈ nodes, n.id ≠ c.fromNodeId) ∨
        (∀ n ∈ nodes, n.id ≠ c.toNodeId)) →
      ¬HasCycle (fullEdges nodes connections) →
      ∃ l, topologicalSort nodes connections = .ok l ∧ ∀ n ∈ l, n ∈ nodes) := by
  constructor
  · intro nodes connections l h
    exact topologicalSort_mem_nodes h
  · intro nodes connections hne _ hacyc
    exact topologicalSort_ok_of_acyclic hne hacyc

/-- C10 witness: the connection `B → GHOST` references a missing node; the
sort succeeds and returns only input nodes. -/
theorem claim_C10_witness :
    ∃ l, topologicalSort [⟨"A", "T", []⟩, ⟨"B", "T", []⟩]
        [⟨"A", "B"⟩, ⟨"B", "GHOST"⟩] = .ok l ∧
      ∀ n ∈ l, n ∈ [(⟨"A", "T", []⟩ : Node), ⟨"B", "T", []⟩] :=
  claim_C10_dangling_refs.2 _ _ (by decide)
    ⟨⟨"B", "GHOST"⟩, by decide, Or.inr (by decide)⟩
    (not_hasCycle_of_toposort_ok rfl)

end Inflow
